import Mathlib

/-!
Verification of the Sora Director pipeline core against its specification.

The development shallowly embeds the Python modules of the repository:
strings are modelled as `List Char` (Python `str`, ASCII case semantics),
floats as `ℚ`, dictionaries as association lists, and the process-global
pseudo-random generator as explicit state passing over an abstract
generator structure.

Embedded modules:
  * `src/scoring_module.py`   (`VideoScorer.score_video` and helpers)
  * `src/prompt_reviser.py`   (`PromptReviser.revise_prompt` and helpers)
  * `src/agent_module.py`     (`AgentModule.test_world` and the mock tester)
  * `src/main.py`             (take ranking and the generation-cache lookup)
-/

/-! ### Python string primitives, ASCII model -/

/-- Whitespace as recognized by Python `str.strip` / `str.split`
(ASCII subset: space, tab, newline, carriage return, vertical tab, form feed). -/
def pySpace (c : Char) : Bool :=
  c.toNat = 32 || c.toNat = 9 || c.toNat = 10 || c.toNat = 13 || c.toNat = 11 || c.toNat = 12

/-- Python `str.isupper` for a single character, ASCII model. -/
def pyIsUpper (c : Char) : Bool :=
  65 ≤ c.toNat && c.toNat ≤ 90

/-- Python `str.upper` on one character, ASCII model. -/
def asciiUpper (c : Char) : Char :=
  if 97 ≤ c.toNat ∧ c.toNat ≤ 122 then Char.ofNat (c.toNat - 32) else c

/-- Python `str.lower` on one character, ASCII model. -/
def asciiLower (c : Char) : Char :=
  if 65 ≤ c.toNat ∧ c.toNat ≤ 90 then Char.ofNat (c.toNat + 32) else c

/-- Python `str.lower`. -/
def pyLower (s : List Char) : List Char :=
  s.map asciiLower

/-- Python `str.lstrip()`. -/
def pyLstrip (s : List Char) : List Char :=
  s.dropWhile pySpace

/-- Python `str.rstrip()`. -/
def pyRstrip (s : List Char) : List Char :=
  (s.reverse.dropWhile pySpace).reverse

/-- Python `str.strip()`. -/
def pyStrip (s : List Char) : List Char :=
  pyRstrip (pyLstrip s)

/-- Test for `prompt.endswith(('.', ',', ';'))` from `_apply_improvements`. -/
def endsPunct (s : List Char) : Bool :=
  match s.getLast? with
  | some c => c == '.' || c == ',' || c == ';'
  | none => false

/-- The `prompt[:-1]` branch of `_apply_improvements`: remove one trailing
punctuation character if present. -/
def stripPunct (s : List Char) : List Char :=
  if endsPunct s then s.dropLast else s

/-- Helper for `pyWordCount`: the boolean records whether the scan is
currently inside a word. -/
def wordsAux : List Char → Bool → Nat
  | [], _ => 0
  | c :: cs, inw =>
    if pySpace c then wordsAux cs false
    else (if inw then 0 else 1) + wordsAux cs true

/-- Python `len(s.split())`: the number of maximal nonempty runs of
non-whitespace characters. -/
def pyWordCount (s : List Char) : Nat :=
  wordsAux s false

/-- The capitalization step of `_apply_general_enhancements`:
`if prompt and not prompt[0].isupper(): prompt = prompt[0].upper() + prompt[1:]`. -/
def capitalizeFirst : List Char → List Char
  | [] => []
  | c :: cs => if pyIsUpper c then c :: cs else asciiUpper c :: cs

/-- Python `list(dict.fromkeys(xs))`: deduplicate, keeping first occurrences. -/
def dedupFirst {α : Type} [DecidableEq α] (l : List α) : List α :=
  l.foldl (fun acc x => if x ∈ acc then acc else acc ++ [x]) []

/-- Python `dict.get(k, default)` over an association-list dictionary. -/
def dictGet (d : List (String × ℚ)) (k : String) (dflt : ℚ) : ℚ :=
  (d.lookup k).getD dflt

/-! ### Scoring engine, from src/scoring_module.py

`VideoScorer.score_video` in mock mode (the configured default,
`Config.USE_MOCK = true`): the six mock metrics are drawn with
`random.uniform` from fixed ranges; the draws are modelled as explicit
parameters (`MockDraws`), constrained to their ranges in the theorems. -/

/-- The six values produced by `random.uniform` in `_score_video_mock`,
in program order. -/
structure MockDraws where
  ip : ℚ
  pr : ℚ
  pp : ℚ
  vq : ℚ
  ms : ℚ
  tc : ℚ

/-- The dictionary built by `_score_video_mock`. -/
def mockMetrics (d : MockDraws) : List (String × ℚ) :=
  [(("identity_persistence"), d.ip),
   (("path_realism"), d.pr),
   (("physics_plausibility"), d.pp),
   (("visual_quality"), d.vq),
   (("motion_smoothness"), d.ms),
   (("temporal_coherence"), d.tc)]

/-- The `weights` dictionary of `VideoScorer._calculate_overall_score`. -/
def overallWeights : List (String × ℚ) :=
  [(("identity_persistence"), mkRat 1 4),
   (("path_realism"), mkRat 1 5),
   (("physics_plausibility"), mkRat 1 5),
   (("visual_quality"), mkRat 3 20),
   (("motion_smoothness"), mkRat 1 10),
   (("temporal_coherence"), mkRat 1 10)]

/-- `VideoScorer._calculate_overall_score`:
`sum(scores.get(k, 0.5) * w for k, w in weights.items())`. -/
def calculateOverall (scores : List (String × ℚ)) : ℚ :=
  (overallWeights.map (fun kw => dictGet scores kw.1 (mkRat 1 2) * kw.2)).sum

/-- `VideoScorer._get_default_scores`. -/
def defaultScores : List (String × ℚ) :=
  [(("identity_persistence"), mkRat 1 2),
   (("path_realism"), mkRat 1 2),
   (("physics_plausibility"), mkRat 1 2),
   (("visual_quality"), mkRat 1 2),
   (("motion_smoothness"), mkRat 1 2),
   (("temporal_coherence"), mkRat 1 2),
   (("overall"), mkRat 1 2)]

/-- `VideoScorer.score_video` in mock mode.  `fsExists` models
`video_path.exists()`; a missing file returns the defaults immediately,
otherwise the mock metrics are computed and `scores['overall']` is appended. -/
def scoreVideo (fsExists : Bool) (d : MockDraws) : List (String × ℚ) :=
  if fsExists = false then defaultScores
  else
    let scores := mockMetrics d
    scores ++ [(("overall"), calculateOverall scores)]

/-! ### Take ranking, from src/main.py generate_videos

`takes_sorted = sorted(takes, key=lambda x: x['scores']['overall'], reverse=True)`
followed by `for rank, take in enumerate(takes_sorted, start=1): take['rank'] = rank`.
Python's sort is stable also with `reverse=True`; the model realizes the same
stable descending order by inserting each take, in list order, after all
already-placed takes whose key is greater than or equal to its own. -/

/-- One scored take: its 1-based original index (`take_id` from
`enumerate(video_paths, start=1)`) and its overall score. -/
structure TakeScored where
  takeId : Nat
  overall : ℚ
deriving DecidableEq

/-- Stable-descending insertion: the new take `t` (which occurs after every
element of the accumulator in the original order) is placed after every
element whose overall score is greater than or equal to its own. -/
def insertTake (t : TakeScored) : List TakeScored → List TakeScored
  | [] => [t]
  | y :: ys => if t.overall ≤ y.overall then y :: insertTake t ys else t :: y :: ys

/-- Stable descending sort by overall score, processing takes in order. -/
def sortTakes (l : List TakeScored) : List TakeScored :=
  l.foldl (fun acc t => insertTake t acc) []

/-- A take together with its assigned rank. -/
structure RankedTake where
  take : TakeScored
  rank : Nat
deriving DecidableEq

/-- `enumerate(takes_sorted, start=r)`: assign increasing ranks in list order. -/
def addRanksFrom (r : Nat) : List TakeScored → List RankedTake
  | [] => []
  | t :: ts => ⟨t, r⟩ :: addRanksFrom (r + 1) ts

/-- Build the takes list as `generate_videos` does: 1-based `take_id` in
production order, each carrying its overall score. -/
def mkTakesFrom (i : Nat) : List ℚ → List TakeScored
  | [] => []
  | o :: os => ⟨i, o⟩ :: mkTakesFrom (i + 1) os

/-- The complete scoring-stage ranking of src/main.py, as a function of the
takes' overall scores in production order. -/
def rankTakes (overalls : List ℚ) : List RankedTake :=
  addRanksFrom 1 (sortTakes (mkTakesFrom 1 overalls))

/-- Strict-descending-with-index tie-break order: the relation that holds
between consecutive elements of a correctly ranked list. -/
def lexDesc (a b : TakeScored) : Prop :=
  b.overall < a.overall ∨ (a.overall = b.overall ∧ a.takeId < b.takeId)

/-! ### Generation-cache lookup, from src/main.py generate_videos

Lines 175-198: with `use_real_api` set and a parseable cache file, the cached
record is returned only when `all(Path(take['video_path']).exists() for take
in cached_data['takes'])`; otherwise the code falls through and regenerates
(a miss).  A missing or unparseable cache file is likewise a miss. -/

/-- One take of a cached generation record: only the artifact location is
relevant to lookup validation. -/
structure CachedTake where
  videoPath : String
deriving DecidableEq

/-- A cached generation record. -/
structure GenRecord where
  promptHash : String
  takes : List CachedTake
deriving DecidableEq

/-- The cache-lookup decision of `generate_videos`: `entry` is the parsed
cache file when it exists and parses (`none` covers both a missing file and a
parse failure, which the code treats as a miss), `fsExists` is the storage
layer's existence check. -/
def cacheLookup (useRealApi : Bool) (entry : Option GenRecord)
    (fsExists : String → Bool) : Option GenRecord :=
  match entry, useRealApi with
  | some rec, true =>
    if rec.takes.all (fun t => fsExists t.videoPath) then some rec else none
  | _, _ => none

/-! ### Prompt reviser, from src/prompt_reviser.py -/

/-- A violation as consumed by `PromptReviser.revise_prompt`
(`violation.get('type', '')` and `violation.get('severity', 'medium')`;
the severity is read but never used). -/
structure PyViolation where
  vtype : String
  severity : String
deriving DecidableEq

/-- `revision_rules['PhysicsViolation']`. -/
def physicsRules : List (List Char) :=
  [("with clear solid boundaries").toList,
   ("with well-defined physical structures").toList,
   ("ensuring proper collision geometry").toList]

/-- `revision_rules['BoundaryViolation']`. -/
def boundaryRules : List (List Char) :=
  [("in a contained environment").toList,
   ("with visible boundaries").toList,
   ("within a defined space").toList]

/-- `revision_rules['ObjectPersistence']`. -/
def objectRules : List (List Char) :=
  [("with consistent object appearance").toList,
   ("maintaining visual continuity").toList,
   ("with stable object identity").toList]

/-- `revision_rules['DepthInconsistency']`. -/
def depthRules : List (List Char) :=
  [("with accurate depth perception").toList,
   ("ensuring proper 3D geometry").toList,
   ("with consistent spatial relationships").toList]

/-- `revision_rules['LowVisualQuality']`. -/
def lowVisualQualityRules : List (List Char) :=
  [("in high quality").toList,
   ("with sharp details").toList,
   ("cinematic lighting").toList]

/-- `revision_rules['MotionIssues']`. -/
def motionIssuesRules : List (List Char) :=
  [("with smooth motion").toList,
   ("realistic movement").toList,
   ("natural animation").toList]

/-- The `revision_rules` dictionary keyed by violation type. -/
def revisionRules (t : String) : Option (List (List Char)) :=
  if t = "PhysicsViolation" then some physicsRules
  else if t = "BoundaryViolation" then some boundaryRules
  else if t = "ObjectPersistence" then some objectRules
  else if t = "DepthInconsistency" then some depthRules
  else if t = "LowVisualQuality" then some lowVisualQualityRules
  else if t = "MotionIssues" then some motionIssuesRules
  else none

/-- All candidate augmentation phrases of `revision_rules`, for side
conditions on their characters. -/
def allRulePhrases : List (List Char) :=
  physicsRules ++ boundaryRules ++ objectRules ++ depthRules ++
    lowVisualQualityRules ++ motionIssuesRules

/-- `Config.MIN_IDENTITY_PERSISTENCE` (default 0.85). -/
def minIdentityPersistence : ℚ := mkRat 17 20

/-- `Config.MIN_PATH_REALISM` (default 0.80). -/
def minPathRealism : ℚ := mkRat 4 5

/-- The violation loop of `revise_prompt`: for each violation whose type is a
rule key, take candidate `[0]` and collect it if it is not already a
substring of the lowercased working prompt. -/
def collectBase (revised : List Char) (violations : List PyViolation) :
    List (List Char) :=
  violations.foldl
    (fun acc v =>
      match revisionRules v.vtype with
      | some rules =>
        let rule := rules.headD []
        if rule <:+: pyLower revised then acc else acc ++ [rule]
      | none => acc)
    []

/-- The full improvement collection of `revise_prompt`: the violation-driven
phrases, the score-driven extensions, then `list(dict.fromkeys(...))`. -/
def collectImprovements (revised : List Char) (violations : List PyViolation)
    (scores : Option (List (String × ℚ))) : List (List Char) :=
  let base := collectBase revised violations
  let withScores :=
    match scores with
    | none => base
    | some s =>
      let b1 := if dictGet s ("visual_quality") 1 < minIdentityPersistence
                then base ++ lowVisualQualityRules else base
      if dictGet s ("motion_smoothness") 1 < minPathRealism
      then b1 ++ motionIssuesRules else b1
  dedupFirst withScores

/-- The fold step of `_apply_improvements`: append `, <phrase>` unless the
phrase is already a case-insensitive substring of the working prompt. -/
def addImprove (acc : List Char) (imp : List Char) : List Char :=
  if pyLower imp <:+: pyLower acc then acc else acc ++ (',' :: ' ' :: imp)

/-- `PromptReviser._apply_improvements`: right-strip, drop one trailing
punctuation character, then append the new phrases. -/
def applyImprovements (prompt : List Char) (improvements : List (List Char)) :
    List Char :=
  improvements.foldl addImprove (stripPunct (pyRstrip prompt))

/-- The `quality_terms` of `_apply_general_enhancements`. -/
def qualityTerms : List (List Char) :=
  [("high quality").toList, ("cinematic").toList, ("4k").toList,
   ("detailed").toList]

/-- `any(term in prompt.lower() for term in quality_terms)`. -/
def hasQuality (prompt : List Char) : Bool :=
  qualityTerms.any (fun t => decide (t <:+: pyLower prompt))

/-- `PromptReviser._apply_general_enhancements`. -/
def applyGeneralEnhancements (prompt : List Char) : List Char :=
  let p1 :=
    if hasQuality prompt = false ∧ pyWordCount prompt < 30
    then prompt ++ (", cinematic shot").toList
    else prompt
  capitalizeFirst p1

/-- `PromptReviser.revise_prompt`. -/
def revisePrompt (original : List Char) (violations : List PyViolation)
    (scores : Option (List (String × ℚ))) : List Char :=
  let revised := pyStrip original
  let improvements := collectImprovements revised violations scores
  let revised :=
    if improvements.isEmpty then revised
    else applyImprovements revised improvements
  applyGeneralEnhancements revised

/-! ### Violation detector, from src/agent_module.py

`AgentModule._test_world_mock` re-seeds Python's process-global PRNG from
`hash(str(asset_path)) % 100`, draws the violation count, the candidate
violations' coordinates and timestamps, samples the violations, then calls
`random.seed()` (entropy re-seed) before drawing the aggregate metrics.  The
PRNG is modelled as an abstract deterministic generator over a state type
`σ`: `seedState` is `random.seed(n)`, the entropy re-seed is an explicit
parameter, and each draw threads the state. -/

/-- One mock violation record. -/
structure MockViolation where
  vtype : String
  description : String
  severity : String
  locX : ℚ
  locY : ℚ
  locZ : ℚ
  timestamp : ℚ
deriving DecidableEq

/-- A test result as returned by the violation detector. -/
structure MockTestResult where
  assetPath : String
  scenarios : List String
  violations : List MockViolation
  metrics : List (String × ℚ)
  duration : ℚ
  success : Bool
deriving DecidableEq

/-- An abstract model of Python's `random` module: a deterministic generator
with explicit state.  `seedState n` models `random.seed(n)`; `randint a b`
and `uniform a b` advance the state deterministically; `sample l k` draws
`k` elements without replacement. -/
structure PyRandom (σ : Type) where
  seedState : Int → σ
  randint : Int → Int → σ → Int × σ
  uniform : ℚ → ℚ → σ → ℚ × σ
  sample : List MockViolation → Nat → σ → List MockViolation × σ

/-- The default scenario list of `AgentModule.test_world`. -/
def defaultScenarios : List String :=
  [("collision_detection"), ("path_traversal"), ("physics_stability"),
   ("boundary_integrity"), ("object_persistence")]

/-- `AgentModule._test_world_mock`.  `pathHash` is `hash(str(asset_path))`
(fixed within one process), `entropy` is the state installed by the argument-
less `random.seed()` call, and `s0` is the global PRNG state on entry. -/
def testWorldMock {σ : Type} (rng : PyRandom σ) (pathHash : Int) (dur : ℚ)
    (assetPath : String) (scenarios : List String) (s0 : σ) (entropy : σ) :
    MockTestResult :=
  let _ := s0
  let s := rng.seedState (pathHash % 100)
  let (nv, s) := rng.randint 0 3 s
  let (x1, s) := rng.uniform (-5) 5 s
  let (z1, s) := rng.uniform (-5) 5 s
  let (t1, s) := rng.uniform 1 dur s
  let (x2, s) := rng.uniform (-10) 10 s
  let (z2, s) := rng.uniform (-10) 10 s
  let (t2, s) := rng.uniform 1 dur s
  let (x3, s) := rng.uniform (-5) 5 s
  let (y3, s) := rng.uniform 0 2 s
  let (z3, s) := rng.uniform (-5) 5 s
  let (t3, s) := rng.uniform 1 dur s
  let (x4, s) := rng.uniform (-5) 5 s
  let (y4, s) := rng.uniform 0 2 s
  let (z4, s) := rng.uniform (-5) 5 s
  let (t4, s) := rng.uniform 1 dur s
  let violationTypes : List MockViolation :=
    [⟨("PhysicsViolation"),
      ("Agent path collided with an object that should be solid."),
      ("high"), x1, 0, z1, t1⟩,
     ⟨("BoundaryViolation"),
      ("Agent was able to exit the expected scene boundaries."),
      ("medium"), x2, 0, z2, t2⟩,
     ⟨("ObjectPersistence"),
      ("Object appearance changed unexpectedly during traversal."),
      ("medium"), x3, y3, z3, t3⟩,
     ⟨("DepthInconsistency"),
      ("Depth mapping inconsistent with expected scene geometry."),
      ("low"), x4, y4, z4, t4⟩]
  let (violations, _) :=
    rng.sample violationTypes (min nv.toNat violationTypes.length) s
  let s := entropy
  let (cr, s) := if 0 < nv then rng.uniform 0 (mkRat 3 20) s else (0, s)
  let (pc, s) := rng.uniform (mkRat 7 10) 1 s
  let (ps, s) := rng.uniform (mkRat 3 4) (mkRat 19 20) s
  let (ss, _) := rng.uniform (mkRat 4 5) (mkRat 49 50) s
  { assetPath := assetPath,
    scenarios := scenarios,
    violations := violations,
    metrics := [(("collision_rate"), cr), (("path_completion"), pc),
                (("physics_score"), ps), (("stability_score"), ss)],
    duration := dur,
    success := violations.isEmpty }

/-- The error raised by `AgentModule.test_world` on a missing asset. -/
inductive PyErr where
  | fileNotFound
deriving DecidableEq

/-- `AgentModule.test_world`: raises `FileNotFoundError` when the asset path
does not exist, otherwise dispatches to the mock or real tester.
`realOutcome` models `_test_world_real`: its `try` body either produces a
result or raises, and a raise is caught and replaced by a mock-tester
fallback. -/
def testWorld {σ : Type} (rng : PyRandom σ) (fsExists : Bool)
    (useMock : Bool) (realOutcome : Except Unit MockTestResult)
    (pathHash : Int) (dur : ℚ) (assetPath : String)
    (testScenarios : Option (List String)) (s0 : σ) (entropy : σ) :
    Except PyErr MockTestResult :=
  if fsExists = false then Except.error PyErr.fileNotFound
  else
    let scen := testScenarios.getD defaultScenarios
    if useMock then
      Except.ok (testWorldMock rng pathHash dur assetPath scen s0 entropy)
    else
      match realOutcome with
      | Except.ok r => Except.ok r
      | Except.error _ =>
        Except.ok (testWorldMock rng pathHash dur assetPath scen s0 entropy)

/-- A trivial concrete instance of the abstract generator, used to evaluate
the model at concrete inputs. -/
def unitRandom : PyRandom Unit where
  seedState _ := ()
  randint _ _ _ := (0, ())
  uniform _ _ _ := (0, ())
  sample l k _ := (l.take k, ())

/-! ### Helper lemmas: ASCII characters -/

theorem toNat_ofNat_small (n : Nat) (h : n < 55296) : (Char.ofNat n).toNat = n := by
  have hv : n.isValidChar := Or.inl h
  simp [Char.ofNat, hv, Char.ofNatAux, Char.toNat, UInt32.toNat]

theorem asciiUpper_toNat (c : Char) (h : 97 ≤ c.toNat ∧ c.toNat ≤ 122) :
    (asciiUpper c).toNat = c.toNat - 32 := by
  rw [asciiUpper, if_pos h, toNat_ofNat_small _ (by omega)]

theorem asciiUpper_of_not (c : Char) (h : ¬(97 ≤ c.toNat ∧ c.toNat ≤ 122)) :
    asciiUpper c = c := by
  rw [asciiUpper, if_neg h]

theorem asciiLower_toNat (c : Char) (h : 65 ≤ c.toNat ∧ c.toNat ≤ 90) :
    (asciiLower c).toNat = c.toNat + 32 := by
  rw [asciiLower, if_pos h, toNat_ofNat_small _ (by omega)]

theorem asciiLower_of_not (c : Char) (h : ¬(65 ≤ c.toNat ∧ c.toNat ≤ 90)) :
    asciiLower c = c := by
  rw [asciiLower, if_neg h]

theorem char_eq_of_toNat_eq {c d : Char} (h : c.toNat = d.toNat) : c = d := by
  have := congrArg Char.ofNat h
  rwa [Char.ofNat_toNat, Char.ofNat_toNat] at this

theorem asciiUpper_asciiUpper (c : Char) : asciiUpper (asciiUpper c) = asciiUpper c := by
  by_cases h : 97 ≤ c.toNat ∧ c.toNat ≤ 122
  · have h1 := asciiUpper_toNat c h
    apply asciiUpper_of_not
    omega
  · rw [asciiUpper_of_not c h]; exact asciiUpper_of_not c h

theorem asciiLower_asciiUpper (c : Char) : asciiLower (asciiUpper c) = asciiLower c := by
  by_cases h : 97 ≤ c.toNat ∧ c.toNat ≤ 122
  · have h1 := asciiUpper_toNat c h
    have h2 : 65 ≤ (asciiUpper c).toNat ∧ (asciiUpper c).toNat ≤ 90 := by omega
    have h3 : ¬(65 ≤ c.toNat ∧ c.toNat ≤ 90) := by omega
    rw [asciiLower_of_not c h3]
    apply char_eq_of_toNat_eq
    rw [asciiLower_toNat _ h2, h1]
    omega
  · rw [asciiUpper_of_not c h]

theorem pySpace_asciiUpper (c : Char) : pySpace (asciiUpper c) = pySpace c := by
  by_cases h : 97 ≤ c.toNat ∧ c.toNat ≤ 122
  · have h1 := asciiUpper_toNat c h
    have hl : pySpace (asciiUpper c) = false := by
      simp [pySpace, h1]
      omega
    have hr : pySpace c = false := by
      simp [pySpace]
      omega
    rw [hl, hr]
  · rw [asciiUpper_of_not c h]

theorem pySpace_asciiLower (c : Char) : pySpace (asciiLower c) = pySpace c := by
  by_cases h : 65 ≤ c.toNat ∧ c.toNat ≤ 90
  · have h1 := asciiLower_toNat c h
    have hl : pySpace (asciiLower c) = false := by
      simp [pySpace, h1]
      omega
    have hr : pySpace c = false := by
      simp [pySpace]
      omega
    rw [hl, hr]
  · rw [asciiLower_of_not c h]

/-! ### Helper lemmas: strings -/

theorem pyLower_append (a b : List Char) :
    pyLower (a ++ b) = pyLower a ++ pyLower b :=
  List.map_append asciiLower a b

theorem pyLower_capitalizeFirst (s : List Char) :
    pyLower (capitalizeFirst s) = pyLower s := by
  cases s with
  | nil => rfl
  | cons c cs =>
    by_cases h : pyIsUpper c = true
    · simp [capitalizeFirst, h]
    · simp [capitalizeFirst, h, pyLower, asciiLower_asciiUpper c]

theorem wordsAux_congr (c c' : Char) (cs : List Char) (b : Bool)
    (h : pySpace c = pySpace c') :
    wordsAux (c :: cs) b = wordsAux (c' :: cs) b := by
  simp [wordsAux, h]

theorem pyWordCount_capitalizeFirst (s : List Char) :
    pyWordCount (capitalizeFirst s) = pyWordCount s := by
  cases s with
  | nil => rfl
  | cons c cs =>
    by_cases h : pyIsUpper c = true
    · simp [capitalizeFirst, h]
    · simp only [capitalizeFirst, h, if_false, Bool.false_eq_true]
      exact wordsAux_congr _ c cs false (pySpace_asciiUpper c)

theorem capitalizeFirst_capitalizeFirst (s : List Char) :
    capitalizeFirst (capitalizeFirst s) = capitalizeFirst s := by
  cases s with
  | nil => rfl
  | cons c cs =>
    by_cases h : pyIsUpper c = true
    · simp [capitalizeFirst, h]
    · simp only [capitalizeFirst, h, if_false, Bool.false_eq_true]
      by_cases h2 : pyIsUpper (asciiUpper c) = true
      · simp [capitalizeFirst, h2]
      · simp [capitalizeFirst, h2, asciiUpper_asciiUpper c]

/-! ### C1 and C2: scoring engine -/

/-- C1: every Score Set returned by `score_video` (mock scoring mode, the
configured default) contains the six required metric keys with values in
[0,1] — given that each `random.uniform(lo, hi)` draw lies in its range —
and the `overall` key holds exactly the weighted sum
0.25/0.20/0.20/0.15/0.10/0.10 of the six metrics (the weights are written as
exact rationals; the floating-point tolerance of the claim is subsumed by
exact rational arithmetic). -/
theorem scoring_score_set_valid (d : MockDraws)
    (h1 : mkRat 82 100 ≤ d.ip ∧ d.ip ≤ mkRat 98 100)
    (h2 : mkRat 80 100 ≤ d.pr ∧ d.pr ≤ mkRat 96 100)
    (h3 : mkRat 75 100 ≤ d.pp ∧ d.pp ≤ mkRat 95 100)
    (h4 : mkRat 85 100 ≤ d.vq ∧ d.vq ≤ mkRat 99 100)
    (h5 : mkRat 78 100 ≤ d.ms ∧ d.ms ≤ mkRat 97 100)
    (h6 : mkRat 80 100 ≤ d.tc ∧ d.tc ≤ mkRat 98 100) :
    ((scoreVideo true d).lookup ("identity_persistence") = some d.ip ∧
      0 ≤ d.ip ∧ d.ip ≤ 1) ∧
    ((scoreVideo true d).lookup ("path_realism") = some d.pr ∧
      0 ≤ d.pr ∧ d.pr ≤ 1) ∧
    ((scoreVideo true d).lookup ("physics_plausibility") = some d.pp ∧
      0 ≤ d.pp ∧ d.pp ≤ 1) ∧
    ((scoreVideo true d).lookup ("visual_quality") = some d.vq ∧
      0 ≤ d.vq ∧ d.vq ≤ 1) ∧
    ((scoreVideo true d).lookup ("motion_smoothness") = some d.ms ∧
      0 ≤ d.ms ∧ d.ms ≤ 1) ∧
    ((scoreVideo true d).lookup ("temporal_coherence") = some d.tc ∧
      0 ≤ d.tc ∧ d.tc ≤ 1) ∧
    (scoreVideo true d).lookup ("overall") =
      some (mkRat 1 4 * d.ip + mkRat 1 5 * d.pr + mkRat 1 5 * d.pp +
        mkRat 3 20 * d.vq + mkRat 1 10 * d.ms + mkRat 1 10 * d.tc) := by
  refine ⟨⟨?_, le_trans (by norm_num [mkRat]) h1.1, h1.2.trans (by norm_num [mkRat])⟩,
    ⟨?_, le_trans (by norm_num [mkRat]) h2.1, h2.2.trans (by norm_num [mkRat])⟩,
    ⟨?_, le_trans (by norm_num [mkRat]) h3.1, h3.2.trans (by norm_num [mkRat])⟩,
    ⟨?_, le_trans (by norm_num [mkRat]) h4.1, h4.2.trans (by norm_num [mkRat])⟩,
    ⟨?_, le_trans (by norm_num [mkRat]) h5.1, h5.2.trans (by norm_num [mkRat])⟩,
    ⟨?_, le_trans (by norm_num [mkRat]) h6.1, h6.2.trans (by norm_num [mkRat])⟩, ?_⟩ <;>
    (simp [scoreVideo, mockMetrics, calculateOverall, dictGet,
      overallWeights, List.lookup]; try ring)

/-- Witness for C1: all hypotheses hold at the draw 9/10 for each metric,
and the overall entry is the weighted sum. -/
theorem scoring_score_set_valid_witness :
    ((mkRat 82 100 ≤ mkRat 9 10 ∧ mkRat 9 10 ≤ mkRat 98 100) ∧
      (mkRat 80 100 ≤ mkRat 9 10 ∧ mkRat 9 10 ≤ mkRat 96 100) ∧
      (mkRat 75 100 ≤ mkRat 9 10 ∧ mkRat 9 10 ≤ mkRat 95 100) ∧
      (mkRat 85 100 ≤ mkRat 9 10 ∧ mkRat 9 10 ≤ mkRat 99 100) ∧
      (mkRat 78 100 ≤ mkRat 9 10 ∧ mkRat 9 10 ≤ mkRat 97 100) ∧
      (mkRat 80 100 ≤ mkRat 9 10 ∧ mkRat 9 10 ≤ mkRat 98 100)) ∧
    (scoreVideo true ⟨mkRat 9 10, mkRat 9 10, mkRat 9 10, mkRat 9 10,
        mkRat 9 10, mkRat 9 10⟩).lookup ("overall") =
      some (mkRat 1 4 * mkRat 9 10 + mkRat 1 5 * mkRat 9 10 +
        mkRat 1 5 * mkRat 9 10 + mkRat 3 20 * mkRat 9 10 +
        mkRat 1 10 * mkRat 9 10 + mkRat 1 10 * mkRat 9 10) :=
  ⟨by decide,
   (scoring_score_set_valid ⟨mkRat 9 10, mkRat 9 10, mkRat 9 10, mkRat 9 10,
      mkRat 9 10, mkRat 9 10⟩ (by decide) (by decide) (by decide) (by decide)
      (by decide) (by decide)).2.2.2.2.2.2⟩

/-- C2: for a video path that does not exist, `score_video` returns exactly
the default Score Set in which all six metrics and `overall` equal 0.5; the
function is total (it returns this value rather than raising). -/
theorem scoring_missing_default (d : MockDraws) :
    scoreVideo false d = defaultScores ∧
    scoreVideo false d =
      [(("identity_persistence"), mkRat 1 2),
       (("path_realism"), mkRat 1 2),
       (("physics_plausibility"), mkRat 1 2),
       (("visual_quality"), mkRat 1 2),
       (("motion_smoothness"), mkRat 1 2),
       (("temporal_coherence"), mkRat 1 2),
       (("overall"), mkRat 1 2)] :=
  ⟨rfl, rfl⟩

/-! ### C3: ranking -/

theorem insertTake_perm (t : TakeScored) (l : List TakeScored) :
    (insertTake t l).Perm (t :: l) := by
  induction l with
  | nil => rfl
  | cons y ys ih =>
    by_cases h : t.overall ≤ y.overall
    · simp only [insertTake, if_pos h]
      exact ((ih.cons y).trans (List.Perm.swap t y ys))
    · simp only [insertTake, if_neg h]
      exact List.Perm.refl _

theorem mem_insertTake {x t : TakeScored} {l : List TakeScored} :
    x ∈ insertTake t l ↔ x = t ∨ x ∈ l := by
  rw [(insertTake_perm t l).mem_iff]
  simp

theorem insertTake_pairwise {t : TakeScored} {l : List TakeScored}
    (hp : l.Pairwise lexDesc) (hid : ∀ y ∈ l, y.takeId < t.takeId) :
    (insertTake t l).Pairwise lexDesc := by
  induction l with
  | nil => simp [insertTake]
  | cons y ys ih =>
    rw [List.pairwise_cons] at hp
    by_cases h : t.overall ≤ y.overall
    · simp only [insertTake, if_pos h]
      rw [List.pairwise_cons]
      refine ⟨?_, ih hp.2 (fun z hz => hid z (List.mem_cons_of_mem y hz))⟩
      intro z hz
      rcases mem_insertTake.mp hz with rfl | hz'
      · rcases lt_or_eq_of_le h with h' | h'
        · exact Or.inl h'
        · exact Or.inr ⟨h'.symm, hid y (List.mem_cons_self y ys) ⟩
      · exact hp.1 z hz'
    · push_neg at h
      simp only [insertTake, if_neg (not_le.mpr h)]
      rw [List.pairwise_cons]
      refine ⟨?_, List.pairwise_cons.mpr hp⟩
      intro z hz
      rcases List.mem_cons.mp hz with rfl | hz'
      · exact Or.inl h
      · rcases hp.1 z hz' with h2 | h2
        · exact Or.inl (h2.trans h)
        · exact Or.inl (h2.1 ▸ h)

theorem sortAux_perm (l acc : List TakeScored) :
    (l.foldl (fun acc t => insertTake t acc) acc).Perm (acc ++ l) := by
  induction l generalizing acc with
  | nil => simp
  | cons t ts ih =>
    simp only [List.foldl_cons]
    refine (ih (insertTake t acc)).trans ?_
    refine (((insertTake_perm t acc).append_right ts).trans ?_)
    exact (List.perm_middle).symm

theorem sortAux_pairwise (l acc : List TakeScored)
    (hacc : acc.Pairwise lexDesc)
    (hcross : ∀ y ∈ acc, ∀ t ∈ l, y.takeId < t.takeId)
    (hl : l.Pairwise (fun a b => a.takeId < b.takeId)) :
    (l.foldl (fun acc t => insertTake t acc) acc).Pairwise lexDesc := by
  induction l generalizing acc with
  | nil => simpa using hacc
  | cons t ts ih =>
    rw [List.pairwise_cons] at hl
    simp only [List.foldl_cons]
    refine ih (insertTake t acc) ?_ ?_ hl.2
    · exact insertTake_pairwise hacc
        (fun y hy => hcross y hy t (List.mem_cons_self t ts))
    · intro y hy u hu
      rcases mem_insertTake.mp hy with rfl | hy'
      · exact hl.1 u hu
      · exact hcross y hy' u (List.mem_cons_of_mem t hu)

theorem mem_mkTakesFrom {t : TakeScored} :
    ∀ {os : List ℚ} {i : Nat}, t ∈ mkTakesFrom i os → i ≤ t.takeId := by
  intro os
  induction os with
  | nil => intro i h; simp [mkTakesFrom] at h
  | cons o os ih =>
    intro i h
    rcases List.mem_cons.mp h with rfl | h'
    · exact Nat.le_refl _
    · exact Nat.le_of_succ_le (ih h')

theorem mkTakesFrom_pairwise (os : List ℚ) (i : Nat) :
    (mkTakesFrom i os).Pairwise (fun a b => a.takeId < b.takeId) := by
  induction os generalizing i with
  | nil => simp [mkTakesFrom]
  | cons o os ih =>
    simp only [mkTakesFrom, List.pairwise_cons]
    exact ⟨fun b hb => Nat.lt_of_lt_of_le (Nat.lt_succ_self i) (mem_mkTakesFrom hb),
      ih (i + 1)⟩

theorem addRanksFrom_map_take (r : Nat) (l : List TakeScored) :
    (addRanksFrom r l).map RankedTake.take = l := by
  induction l generalizing r with
  | nil => rfl
  | cons t ts ih => simp [addRanksFrom, ih]

theorem addRanksFrom_map_rank (r : Nat) (l : List TakeScored) :
    (addRanksFrom r l).map RankedTake.rank = List.range' r l.length := by
  induction l generalizing r with
  | nil => rfl
  | cons t ts ih => simp [addRanksFrom, ih, List.range']

theorem mkTakesFrom_length (os : List ℚ) : ∀ i, (mkTakesFrom i os).length = os.length := by
  induction os with
  | nil => intro i; rfl
  | cons o os ih => intro i; simp [mkTakesFrom, ih]

/-- C3: the scoring stage sorts takes in descending order of overall score
with ties broken by original take index (stable sort), and assigns ranks
1..N in sorted order.  `lexDesc` holding pairwise along the output states
exactly descending overall with lower original index first on ties; the
concrete instances show overalls 0.92/0.85/0.78 receiving ranks 1/2/3 and a
tie (0.85/0.92/0.85) ranking take 1 before take 3. -/
theorem ranking_stable :
    (∀ overalls : List ℚ,
      ((rankTakes overalls).map RankedTake.take).Perm (mkTakesFrom 1 overalls) ∧
      ((rankTakes overalls).map RankedTake.take).Pairwise lexDesc ∧
      (rankTakes overalls).map RankedTake.rank =
        List.range' 1 overalls.length) ∧
    rankTakes [mkRat 92 100, mkRat 85 100, mkRat 78 100] =
      [⟨⟨1, mkRat 92 100⟩, 1⟩, ⟨⟨2, mkRat 85 100⟩, 2⟩,
       ⟨⟨3, mkRat 78 100⟩, 3⟩] ∧
    rankTakes [mkRat 85 100, mkRat 92 100, mkRat 85 100] =
      [⟨⟨2, mkRat 92 100⟩, 1⟩, ⟨⟨1, mkRat 85 100⟩, 2⟩,
       ⟨⟨3, mkRat 85 100⟩, 3⟩] := by
  refine ⟨?_, by decide, by decide⟩
  intro overalls
  have hperm : (sortTakes (mkTakesFrom 1 overalls)).Perm (mkTakesFrom 1 overalls) := by
    simpa using sortAux_perm (mkTakesFrom 1 overalls) []
  have hpair : (sortTakes (mkTakesFrom 1 overalls)).Pairwise lexDesc := by
    refine sortAux_pairwise (mkTakesFrom 1 overalls) [] (by simp) (by simp) ?_
    exact mkTakesFrom_pairwise overalls 1
  have hlen : (sortTakes (mkTakesFrom 1 overalls)).length = overalls.length := by
    rw [hperm.length_eq, mkTakesFrom_length]
  refine ⟨?_, ?_, ?_⟩
  · rw [rankTakes, addRanksFrom_map_take]; exact hperm
  · rw [rankTakes, addRanksFrom_map_take]; exact hpair
  · rw [rankTakes, addRanksFrom_map_rank, hlen]

/-! ### C4, C8 and C9: cache lookup and violation detector -/

/-- C4: the generation-cache lookup returns either the full cached record or
a miss (never a partial record), and it returns the cached record exactly
when every referenced take artifact still exists; in particular a record
with at least one missing artifact is a miss and the pipeline regenerates. -/
theorem cache_lookup_valid (rec : GenRecord) (fsExists : String → Bool) :
    (cacheLookup true (some rec) fsExists = some rec ∨
      cacheLookup true (some rec) fsExists = none) ∧
    (cacheLookup true (some rec) fsExists = some rec ↔
      ∀ t ∈ rec.takes, fsExists t.videoPath = true) := by
  by_cases h : rec.takes.all (fun t => fsExists t.videoPath) = true
  · constructor
    · exact Or.inl (by simp [cacheLookup, h])
    · simp [cacheLookup, h]
      exact List.all_eq_true.mp h
  · constructor
    · exact Or.inr (by simp [cacheLookup, h])
    · simp [cacheLookup, h]
      simp only [List.all_eq_true, not_forall] at h
      obtain ⟨x, hx, hfx⟩ := h
      exact ⟨x, hx, by simpa using hfx⟩

/-- C8: two invocations of the mock violation detector with the same asset
reference (hence the same path hash, within one process) and the same
scenario set produce an identical violation list — including types,
severities, locations and timestamps — and the same count, regardless of
the global PRNG state each call starts from and of the entropy each call
re-seeds with afterwards: the draws are determined by the seed derived from
the asset identity. -/
theorem detector_deterministic_violations {σ : Type} (rng : PyRandom σ)
    (pathHash : Int) (dur : ℚ) (assetPath : String) (scenarios : List String)
    (s1 s2 e1 e2 : σ) :
    (testWorldMock rng pathHash dur assetPath scenarios s1 e1).violations =
      (testWorldMock rng pathHash dur assetPath scenarios s2 e2).violations ∧
    (testWorldMock rng pathHash dur assetPath scenarios s1 e1).violations.length =
      (testWorldMock rng pathHash dur assetPath scenarios s2 e2).violations.length := by
  constructor <;> rfl

/-- C9 (amended): the Scoring Engine absorbs failures — `score_video` is
total and always returns a Score Set with all six metric keys and
`overall` present — and the Violation Detector absorbs internal failures of
its real analysis path by falling back to the mock tester; but `test_world`
raises `FileNotFoundError` to its caller when the input asset does not
exist, rather than returning a fallback result. -/
theorem error_absorption_amended {σ : Type} (rng : PyRandom σ)
    (ex useMock : Bool) (realOutcome : Except Unit MockTestResult)
    (pathHash : Int) (dur : ℚ) (assetPath : String)
    (scen : Option (List String)) (s0 entropy : σ) (d : MockDraws) :
    (ex = true → ∃ r, testWorld rng ex useMock realOutcome pathHash dur
      assetPath scen s0 entropy = Except.ok r) ∧
    (ex = false → testWorld rng ex useMock realOutcome pathHash dur
      assetPath scen s0 entropy = Except.error PyErr.fileNotFound) ∧
    ((scoreVideo ex d).lookup ("identity_persistence")).isSome = true ∧
    ((scoreVideo ex d).lookup ("path_realism")).isSome = true ∧
    ((scoreVideo ex d).lookup ("physics_plausibility")).isSome = true ∧
    ((scoreVideo ex d).lookup ("visual_quality")).isSome = true ∧
    ((scoreVideo ex d).lookup ("motion_smoothness")).isSome = true ∧
    ((scoreVideo ex d).lookup ("temporal_coherence")).isSome = true ∧
    ((scoreVideo ex d).lookup ("overall")).isSome = true := by
  refine ⟨?_, ?_, ?_⟩
  · intro h
    subst h
    cases useMock with
    | true =>
      exact ⟨testWorldMock rng pathHash dur assetPath
        (scen.getD defaultScenarios) s0 entropy, by simp [testWorld]⟩
    | false =>
      cases realOutcome with
      | ok r => exact ⟨r, by simp [testWorld]⟩
      | error e =>
        exact ⟨testWorldMock rng pathHash dur assetPath
          (scen.getD defaultScenarios) s0 entropy, by simp [testWorld]⟩
  · intro h
    subst h
    simp [testWorld]
  · cases ex <;>
      simp [scoreVideo, defaultScores, mockMetrics, List.lookup]

/-- Counterexample to C9 as stated: calling the Violation Detector on a
missing input artifact raises (`FileNotFoundError`) instead of returning a
structurally valid fallback result. -/
theorem detector_raises_on_missing :
    testWorld unitRandom false true (Except.error ()) 0 30
      ("missing.splat") none () () = Except.error PyErr.fileNotFound := rfl

/-- Witness for C9 (amended) at concrete inputs: an existing asset yields a
result, a missing one yields the error. -/
theorem error_absorption_amended_witness :
    (∃ r, testWorld unitRandom true true (Except.error ()) 0 30
      ("a.splat") none () () = Except.ok r) ∧
    testWorld unitRandom false true (Except.error ()) 0 30
      ("a.splat") none () () = Except.error PyErr.fileNotFound :=
  ⟨(error_absorption_amended unitRandom true true (Except.error ()) 0 30
      ("a.splat") none () () ⟨0, 0, 0, 0, 0, 0⟩).1 rfl,
   (error_absorption_amended unitRandom false true (Except.error ()) 0 30
      ("a.splat") none () () ⟨0, 0, 0, 0, 0, 0⟩).2.1 rfl⟩

/-! ### C5, C6 and C7: prompt reviser -/

/-- Counterexample to C5 as stated: on a prompt that already contains the
first PhysicsViolation candidate phrase while the second candidate is
absent, the reviser does not select the later candidate — the revised prompt
does not contain it.  The code always takes candidate index 0 and otherwise
appends nothing for that violation. -/
theorem reviser_counterexample_c5 :
    ((("with clear solid boundaries").toList) <:+:
      pyLower (pyStrip (("A scene with clear solid boundaries").toList))) ∧
    ¬(pyLower (("with well-defined physical structures").toList) <:+:
      pyLower (pyStrip (("A scene with clear solid boundaries").toList))) ∧
    revisePrompt (("A scene with clear solid boundaries").toList)
      [⟨("PhysicsViolation"), ("high")⟩] none =
      ("A scene with clear solid boundaries, cinematic shot").toList ∧
    ¬(pyLower (("with well-defined physical structures").toList) <:+:
      pyLower (revisePrompt (("A scene with clear solid boundaries").toList)
        [⟨("PhysicsViolation"), ("high")⟩] none)) := by decide

/-- Characterization of the violation loop of `revise_prompt` as a
`filterMap`: only index-0 candidates are considered, collected when absent. -/
theorem collectBase_eq_filterMap (revised : List Char)
    (violations : List PyViolation) :
    collectBase revised violations =
      violations.filterMap (fun v =>
        match revisionRules v.vtype with
        | some rules =>
          if rules.headD [] <:+: pyLower revised then none
          else some (rules.headD [])
        | none => none) := by
  have aux : ∀ (vs : List PyViolation) (acc : List (List Char)),
      vs.foldl
        (fun acc v =>
          match revisionRules v.vtype with
          | some rules =>
            let rule := rules.headD []
            if rule <:+: pyLower revised then acc else acc ++ [rule]
          | none => acc) acc =
      acc ++ vs.filterMap (fun v =>
        match revisionRules v.vtype with
        | some rules =>
          if rules.headD [] <:+: pyLower revised then none
          else some (rules.headD [])
        | none => none) := by
    intro vs
    induction vs with
    | nil => intro acc; simp
    | cons v vs ih =>
      intro acc
      rw [List.foldl_cons, List.filterMap_cons]
      cases hr : revisionRules v.vtype with
      | none => simp only [hr]; exact ih acc
      | some rules =>
        by_cases hin : rules.headD [] <:+: pyLower revised
        · simp only [hr, if_pos hin]
          exact ih acc
        · simp only [hr, if_neg hin]
          rw [ih (acc ++ [rules.headD []])]
          simp
  exact aux violations []

/-- C5 (amended): for each violation the reviser considers only the first
candidate phrase (index 0) of the rule list for the violation's type,
collecting it exactly when it is not already a substring of the lowercased
working prompt; when the first candidate is already present, no candidate
for that violation is selected (later candidates are never considered). -/
theorem collectBase_filterMap (revised : List Char)
    (violations : List PyViolation) :
    collectBase revised violations =
      violations.filterMap (fun v =>
        match revisionRules v.vtype with
        | some rules =>
          if rules.headD [] <:+: pyLower revised then none
          else some (rules.headD [])
        | none => none) :=
  collectBase_eq_filterMap revised violations

theorem infix_append_right {l s : List Char} (t : List Char)
    (h : l <:+: s) : l <:+: s ++ t := by
  obtain ⟨u, v, rfl⟩ := h
  exact ⟨u, v ++ t, by simp⟩

theorem foldl_addImprove_filter (imps : List (List Char)) :
    ∀ (start acc : List Char), pyLower start <:+: pyLower acc →
      imps.foldl addImprove acc =
        (imps.filter (fun i =>
          ! decide (pyLower i <:+: pyLower start))).foldl addImprove acc := by
  induction imps with
  | nil => intro start acc _; rfl
  | cons i is ih =>
    intro start acc h
    by_cases hp : pyLower i <:+: pyLower start
    · have hacc : pyLower i <:+: pyLower acc := hp.trans h
      have hstep : addImprove acc i = acc := by simp [addImprove, hacc]
      rw [List.foldl_cons, hstep, List.filter_cons]
      rw [show (! decide (pyLower i <:+: pyLower start)) = false by simp [hp]]
      simp only [Bool.false_eq_true, if_false]
      exact ih start acc h
    · rw [List.foldl_cons, List.filter_cons]
      rw [show (! decide (pyLower i <:+: pyLower start)) = true by simp [hp]]
      simp only [if_true, List.foldl_cons]
      refine ih start (addImprove acc i) ?_
      by_cases hq : pyLower i <:+: pyLower acc
      · simpa [addImprove, hq] using h
      · have hrw : addImprove acc i = acc ++ (',' :: ' ' :: i) := by
          simp [addImprove, hq]
        rw [hrw, pyLower_append]
        exact infix_append_right _ h

/-- C6: `_apply_improvements` never appends a phrase that is already present
(case-insensitively) in the working prompt: filtering out of the improvement
list every phrase already contained in the prepared prompt leaves the result
unchanged, so revision cannot duplicate an augmentation phrase. -/
theorem no_duplicate_augmentation (prompt : List Char)
    (improvements : List (List Char)) :
    applyImprovements prompt improvements =
      applyImprovements prompt (improvements.filter (fun i =>
        ! decide (pyLower i <:+:
          pyLower (stripPunct (pyRstrip prompt))))) := by
  unfold applyImprovements
  exact foldl_addImprove_filter improvements (stripPunct (pyRstrip prompt))
    (stripPunct (pyRstrip prompt)) (List.infix_refl _)

/-- C7: on any prompt with no quality keyword (case-insensitive) and fewer
than 30 whitespace-delimited words, the general enhancement pass appends
", cinematic shot" (followed only by first-character capitalization); and
concretely revising "A simple scene" with no violations yields exactly
"A simple scene, cinematic shot". -/
theorem general_enhancement_cinematic :
    (∀ p : List Char, hasQuality p = false → pyWordCount p < 30 →
      applyGeneralEnhancements p =
        capitalizeFirst (p ++ (", cinematic shot").toList)) ∧
    revisePrompt (("A simple scene").toList) [] none =
      ("A simple scene, cinematic shot").toList := by
  constructor
  · intro p h1 h2
    simp [applyGeneralEnhancements, h1, h2]
  · decide

/-- Witness for C7 at the concrete prompt "A simple scene". -/
theorem general_enhancement_cinematic_witness :
    (hasQuality (("A simple scene").toList) = false ∧
      pyWordCount (("A simple scene").toList) < 30) ∧
    applyGeneralEnhancements (("A simple scene").toList) =
      capitalizeFirst ((("A simple scene").toList) ++
        (", cinematic shot").toList) ∧
    revisePrompt (("A simple scene").toList) [] none =
      ("A simple scene, cinematic shot").toList :=
  ⟨⟨by decide, by decide⟩,
   general_enhancement_cinematic.1 (("A simple scene").toList)
     (by decide) (by decide),
   general_enhancement_cinematic.2⟩

/-! ### Helper lemmas for C10: stripping, infixes and the improvement fold -/

theorem dropWhile_head_not (p : Char → Bool) (l : List Char) :
    ∀ c, (l.dropWhile p).head? = some c → p c = false := by
  induction l with
  | nil => intro c h; simp [List.dropWhile] at h
  | cons a l ih =>
    intro c h
    by_cases ha : p a = true
    · rw [List.dropWhile_cons, if_pos ha] at h
      exact ih c h
    · rw [List.dropWhile_cons, if_neg ha] at h
      simp at h
      subst h
      simpa using ha

theorem dropWhile_eq_self_of_head (p : Char → Bool) (l : List Char)
    (h : ∀ c, l.head? = some c → p c = false) : l.dropWhile p = l := by
  cases l with
  | nil => rfl
  | cons a l =>
    rw [List.dropWhile_cons, if_neg]
    simp [h a rfl]

theorem prefix_head?_some {s t : List Char} {c : Char} (hp : s <+: t)
    (h : s.head? = some c) : t.head? = some c := by
  obtain ⟨u, rfl⟩ := hp
  cases s with
  | nil => simp at h
  | cons a s => simpa using h

theorem pyRstrip_isPrefix_self (s : List Char) : pyRstrip s <+: s := by
  refine ⟨(s.reverse.takeWhile pySpace).reverse, ?_⟩
  rw [pyRstrip, ← List.reverse_append, List.takeWhile_append_dropWhile,
    List.reverse_reverse]

theorem pyRstrip_last_ok (s : List Char) :
    ∀ c, (pyRstrip s).getLast? = some c → pySpace c = false := by
  intro c h
  rw [pyRstrip, List.getLast?_reverse] at h
  exact dropWhile_head_not pySpace s.reverse c h

theorem pyRstrip_eq_self (s : List Char)
    (h : ∀ c, s.getLast? = some c → pySpace c = false) : pyRstrip s = s := by
  rw [pyRstrip, dropWhile_eq_self_of_head, List.reverse_reverse]
  intro c hc
  rw [List.head?_reverse] at hc
  exact h c hc

theorem pyLstrip_head_ok (s : List Char) :
    ∀ c, (pyLstrip s).head? = some c → pySpace c = false :=
  dropWhile_head_not pySpace s

theorem pyLstrip_eq_self (s : List Char)
    (h : ∀ c, s.head? = some c → pySpace c = false) : pyLstrip s = s :=
  dropWhile_eq_self_of_head pySpace s h

theorem pyStrip_eq_self (s : List Char)
    (hh : ∀ c, s.head? = some c → pySpace c = false)
    (hl : ∀ c, s.getLast? = some c → pySpace c = false) : pyStrip s = s := by
  rw [pyStrip, pyLstrip_eq_self s hh, pyRstrip_eq_self s hl]

theorem pyStrip_head_ok (s : List Char) :
    ∀ c, (pyStrip s).head? = some c → pySpace c = false := by
  intro c h
  exact pyLstrip_head_ok s c (prefix_head?_some (pyRstrip_isPrefix_self _) h)

theorem pyStrip_last_ok (s : List Char) :
    ∀ c, (pyStrip s).getLast? = some c → pySpace c = false :=
  pyRstrip_last_ok (pyLstrip s)

theorem infix_pyLower {s t : List Char} (h : s <:+: t) :
    pyLower s <:+: pyLower t := by
  obtain ⟨u, v, rfl⟩ := h
  exact ⟨pyLower u, pyLower v, by simp [pyLower]⟩

theorem prefix_pyLower {s t : List Char} (h : s <+: t) :
    pyLower s <+: pyLower t := by
  obtain ⟨u, rfl⟩ := h
  exact ⟨pyLower u, by simp [pyLower]⟩

theorem infix_append_left {l t : List Char} (s : List Char)
    (h : l <:+: t) : l <:+: s ++ t := by
  obtain ⟨u, v, rfl⟩ := h
  exact ⟨s ++ u, v, by simp⟩

theorem stripPunct_isPrefix_self (s : List Char) : stripPunct s <+: s := by
  by_cases h : endsPunct s = true
  · rw [stripPunct, if_pos h]
    rcases s.eq_nil_or_concat with rfl | ⟨ys, a, rfl⟩
    · simp
    · rw [List.concat_eq_append, List.dropLast_concat]
      exact ⟨[a], rfl⟩
  · rw [stripPunct, if_neg h]

theorem endsPunct_spec {s : List Char} (h : endsPunct s = true) :
    ∃ c, s.getLast? = some c ∧ (c = '.' ∨ c = ',' ∨ c = ';') := by
  unfold endsPunct at h
  cases hg : s.getLast? with
  | none => rw [hg] at h; simp at h
  | some c =>
    rw [hg] at h
    simp only [Bool.or_eq_true, beq_iff_eq] at h
    exact ⟨c, rfl, or_assoc.mp h⟩

theorem infix_dropLast {pat s : List Char} (h : pat <:+: s)
    (hne : ∀ c, s.getLast? = some c → c ∉ pat) : pat <:+: s.dropLast := by
  by_cases hp : pat = []
  · subst hp; simp
  · obtain ⟨u, v, rfl⟩ := h
    cases v with
    | nil =>
      exfalso
      rcases pat.eq_nil_or_concat with rfl | ⟨ys, a, rfl⟩
      · exact hp rfl
      · have ha : (u ++ ys.concat a ++ []).getLast? = some a := by
          simp [List.concat_eq_append]
        exact hne a ha (by simp [List.concat_eq_append])
    | cons b v' =>
      refine ⟨u, (b :: v').dropLast, ?_⟩
      exact List.dropLast_append_cons.symm

theorem addImprove_cases (acc i : List Char) :
    addImprove acc i = acc ∨ addImprove acc i = acc ++ (',' :: ' ' :: i) := by
  unfold addImprove
  by_cases h : pyLower i <:+: pyLower acc
  · exact Or.inl (if_pos h)
  · exact Or.inr (if_neg h)

theorem foldl_addImprove_isPrefix_acc (imps : List (List Char)) :
    ∀ acc : List Char, acc <+: imps.foldl addImprove acc := by
  induction imps with
  | nil => intro acc; exact List.prefix_refl acc
  | cons i is ih =>
    intro acc
    rw [List.foldl_cons]
    rcases addImprove_cases acc i with h | h
    · rw [h]; exact ih acc
    · refine List.IsPrefix.trans ?_ (ih (addImprove acc i))
      rw [h]
      exact ⟨_, rfl⟩

theorem mem_foldl_addImprove_result (imps : List (List Char)) :
    ∀ (acc : List Char) (i : List Char), i ∈ imps →
      pyLower i <:+: pyLower (imps.foldl addImprove acc) := by
  induction imps with
  | nil => intro acc i h; simp at h
  | cons j js ih =>
    intro acc i h
    rw [List.foldl_cons]
    rcases List.mem_cons.mp h with rfl | h'
    · have hbase : pyLower i <:+: pyLower (addImprove acc i) := by
        unfold addImprove
        by_cases hq : pyLower i <:+: pyLower acc
        · rwa [if_pos hq]
        · rw [if_neg hq, pyLower_append]
          refine infix_append_left _ ?_
          refine List.IsSuffix.isInfix ?_
          exact ⟨pyLower [',', ' '], by simp [pyLower]⟩
      refine hbase.trans ?_
      exact (prefix_pyLower (foldl_addImprove_isPrefix_acc js (addImprove acc i))).isInfix
    · exact ih (addImprove acc j) i h'

theorem foldl_addImprove_last_ok (imps : List (List Char)) :
    ∀ acc : List Char,
      (∀ i ∈ imps, i ≠ [] ∧ ∀ c, i.getLast? = some c → pySpace c = false) →
      (∀ c, acc.getLast? = some c → pySpace c = false) →
      ∀ c, (imps.foldl addImprove acc).getLast? = some c → pySpace c = false := by
  induction imps with
  | nil => intro acc _ hacc; exact hacc
  | cons i is ih =>
    intro acc himps hacc
    rw [List.foldl_cons]
    refine ih (addImprove acc i)
      (fun j hj => himps j (List.mem_cons_of_mem i hj)) ?_
    rcases addImprove_cases acc i with h | h
    · rw [h]; exact hacc
    · rw [h]
      intro c hc
      obtain ⟨hne, hlast⟩ := himps i (List.mem_cons_self i is)
      rw [List.getLast?_append] at hc
      have : (',' :: ' ' :: i).getLast? = i.getLast? := by
        cases hx : i with
        | nil => exact absurd hx hne
        | cons a as => simp
      rw [this] at hc
      cases hg : i.getLast? with
      | none => exact absurd (List.getLast?_eq_none_iff.mp hg) hne
      | some a =>
        rw [hg] at hc
        simp only [Option.or_some, Option.some.injEq] at hc
        exact hc ▸ hlast a hg

theorem foldl_addImprove_head_ok (imps : List (List Char)) :
    ∀ acc : List Char,
      (∀ c, acc.head? = some c → pySpace c = false) →
      ∀ c, (imps.foldl addImprove acc).head? = some c → pySpace c = false := by
  induction imps with
  | nil => intro acc hacc; exact hacc
  | cons i is ih =>
    intro acc hacc
    rw [List.foldl_cons]
    refine ih (addImprove acc i) ?_
    rcases addImprove_cases acc i with h | h
    · rw [h]; exact hacc
    · rw [h]
      intro c hc
      cases hx : acc with
      | nil =>
        subst hx
        simp at hc
        subst hc
        decide
      | cons a as =>
        subst hx
        rw [List.cons_append] at hc
        simp at hc
        exact hacc c (by simp [hc])

theorem mem_dedupFirst {α : Type} [DecidableEq α] (l : List α) (x : α) :
    x ∈ dedupFirst l ↔ x ∈ l := by
  have aux : ∀ (l : List α) (acc : List α),
      (x ∈ l.foldl (fun acc x => if x ∈ acc then acc else acc ++ [x]) acc ↔
        x ∈ acc ∨ x ∈ l) := by
    intro l
    induction l with
    | nil => intro acc; simp
    | cons y ys ih =>
      intro acc
      rw [List.foldl_cons]
      by_cases hy : y ∈ acc
      · rw [if_pos hy, ih acc]
        constructor
        · rintro (h | h)
          · exact Or.inl h
          · exact Or.inr (List.mem_cons_of_mem y h)
        · rintro (h | h)
          · exact Or.inl h
          · rcases List.mem_cons.mp h with rfl | h'
            · exact Or.inl hy
            · exact Or.inr h'
      · rw [if_neg hy, ih (acc ++ [y])]
        simp only [List.mem_append, List.mem_singleton, List.mem_cons]
        tauto
  rw [dedupFirst, aux l []]
  simp

theorem dedupFirst_ne_nil {α : Type} [DecidableEq α] {l : List α}
    (h : l ≠ []) : dedupFirst l ≠ [] := by
  cases l with
  | nil => exact absurd rfl h
  | cons y ys =>
    intro hcon
    have : y ∈ dedupFirst (y :: ys) :=
      (mem_dedupFirst _ y).mpr (List.mem_cons_self y ys)
    rw [hcon] at this
    simp at this

theorem mem_collectBase {revised : List Char} {violations : List PyViolation}
    {i : List Char} (h : i ∈ collectBase revised violations) :
    (∃ v ∈ violations, ∃ rules, revisionRules v.vtype = some rules ∧
      i = rules.headD []) ∧ ¬(i <:+: pyLower revised) := by
  rw [collectBase_eq_filterMap] at h
  rw [List.mem_filterMap] at h
  obtain ⟨v, hv, hg⟩ := h
  cases hr : revisionRules v.vtype with
  | none => rw [hr] at hg; simp at hg
  | some rules =>
    rw [hr] at hg
    have hg2 : (if rules.headD [] <:+: pyLower revised then none
        else some (rules.headD [])) = some i := hg
    by_cases hin : rules.headD [] <:+: pyLower revised
    · rw [if_pos hin] at hg2; simp at hg2
    · rw [if_neg hin] at hg2
      simp only [Option.some.injEq] at hg2
      subst hg2
      exact ⟨⟨v, hv, rules, hr, rfl⟩, hin⟩

theorem collectBase_mem_intro {revised : List Char}
    {violations : List PyViolation} {v : PyViolation} {rules : List (List Char)}
    (hv : v ∈ violations) (hr : revisionRules v.vtype = some rules)
    (hn : ¬(rules.headD [] <:+: pyLower revised)) :
    rules.headD [] ∈ collectBase revised violations := by
  rw [collectBase_eq_filterMap, List.mem_filterMap]
  refine ⟨v, hv, ?_⟩
  rw [hr]
  show (if rules.headD [] <:+: pyLower revised then none
    else some (rules.headD [])) = some (rules.headD [])
  rw [if_neg hn]

theorem collectBase_eq_nil {revised : List Char}
    {violations : List PyViolation}
    (h : ∀ v ∈ violations, ∀ rules, revisionRules v.vtype = some rules →
      rules.headD [] <:+: pyLower revised) :
    collectBase revised violations = [] := by
  rw [collectBase_eq_filterMap, List.filterMap_eq_nil_iff]
  intro v hv
  cases hr : revisionRules v.vtype with
  | none => rfl
  | some rules =>
    show (if rules.headD [] <:+: pyLower revised then none
      else some (rules.headD [])) = none
    rw [if_pos (h v hv rules hr)]

theorem revisionRules_headD_mem {t : String} {rules : List (List Char)}
    (h : revisionRules t = some rules) :
    rules.headD [] ∈ allRulePhrases ∧
      pyLower (rules.headD []) = rules.headD [] := by
  unfold revisionRules at h
  by_cases h1 : t = "PhysicsViolation"
  · rw [if_pos h1] at h
    injection h with h
    subst h
    decide
  · rw [if_neg h1] at h
    by_cases h2 : t = "BoundaryViolation"
    · rw [if_pos h2] at h
      injection h with h
      subst h
      decide
    · rw [if_neg h2] at h
      by_cases h3 : t = "ObjectPersistence"
      · rw [if_pos h3] at h
        injection h with h
        subst h
        decide
      · rw [if_neg h3] at h
        by_cases h4 : t = "DepthInconsistency"
        · rw [if_pos h4] at h
          injection h with h
          subst h
          decide
        · rw [if_neg h4] at h
          by_cases h5 : t = "LowVisualQuality"
          · rw [if_pos h5] at h
            injection h with h
            subst h
            decide
          · rw [if_neg h5] at h
            by_cases h6 : t = "MotionIssues"
            · rw [if_pos h6] at h
              injection h with h
              subst h
              decide
            · rw [if_neg h6] at h
              exact absurd h (by simp)


theorem phrases_ne_nil : ∀ i ∈ allRulePhrases, i ≠ [] := by decide

theorem phrases_last_ok :
    ∀ i ∈ allRulePhrases, ∀ c, i.getLast? = some c → pySpace c = false := by
  decide

theorem phrases_no_punct :
    ∀ i ∈ allRulePhrases, ∀ c ∈ i, ¬(c = '.' ∨ c = ',' ∨ c = ';') := by decide

theorem hasQuality_congr {a b : List Char} (h : pyLower a = pyLower b) :
    hasQuality a = hasQuality b := by
  unfold hasQuality
  rw [h]

theorem pyLower_pyLower_eq (s : List Char) :
    pyLower (pyLower s) = pyLower s := by
  unfold pyLower
  rw [List.map_map]
  apply List.map_congr_left
  intro c _
  show asciiLower (asciiLower c) = asciiLower c
  by_cases h : 65 ≤ c.toNat ∧ c.toNat ≤ 90
  · have h1 := asciiLower_toNat c h
    apply asciiLower_of_not
    omega
  · rw [asciiLower_of_not c h]
    exact asciiLower_of_not c h

theorem capitalizeFirst_head_ok {s : List Char}
    (h : ∀ c, s.head? = some c → pySpace c = false) :
    ∀ c, (capitalizeFirst s).head? = some c → pySpace c = false := by
  cases s with
  | nil => intro c hc; simp [capitalizeFirst] at hc
  | cons a as =>
    intro c hc
    by_cases ha : pyIsUpper a = true
    · rw [capitalizeFirst, if_pos ha] at hc
      exact h c hc
    · simp only [capitalizeFirst, ha, Bool.false_eq_true, if_false] at hc
      simp only [List.head?_cons, Option.some.injEq] at hc
      subst hc
      rw [pySpace_asciiUpper]
      exact h a rfl

theorem capitalizeFirst_last_ok {s : List Char}
    (h : ∀ c, s.getLast? = some c → pySpace c = false) :
    ∀ c, (capitalizeFirst s).getLast? = some c → pySpace c = false := by
  cases s with
  | nil => intro c hc; simp [capitalizeFirst] at hc
  | cons a as =>
    cases as with
    | nil =>
      intro c hc
      by_cases ha : pyIsUpper a = true
      · rw [capitalizeFirst, if_pos ha] at hc
        exact h c hc
      · simp only [capitalizeFirst, ha, Bool.false_eq_true, if_false] at hc
        simp only [List.getLast?_singleton, Option.some.injEq] at hc
        subst hc
        rw [pySpace_asciiUpper]
        exact h a rfl
    | cons b bs =>
      intro c hc
      have hg : ∀ x : Char, (x :: b :: bs).getLast? = (b :: bs).getLast? := by
        intro x
        simp [List.getLast?_cons_cons]
      by_cases ha : pyIsUpper a = true
      · rw [capitalizeFirst, if_pos ha] at hc
        exact h c hc
      · simp only [capitalizeFirst, ha, Bool.false_eq_true, if_false] at hc
        rw [hg (asciiUpper a)] at hc
        refine h c ?_
        rw [← hg a] at hc
        exact hc

theorem asciiLower_fix_punct {c : Char} (h : c = '.' ∨ c = ',' ∨ c = ';') :
    asciiLower c = c := by
  rcases h with rfl | rfl | rfl <;> decide

theorem applyImprovements_head_ok (r : List Char) (imps : List (List Char))
    (hh : ∀ c, r.head? = some c → pySpace c = false) :
    ∀ c, (applyImprovements r imps).head? = some c → pySpace c = false := by
  unfold applyImprovements
  refine foldl_addImprove_head_ok imps _ ?_
  intro c hc
  refine hh c ?_
  exact prefix_head?_some ((stripPunct_isPrefix_self _).trans (pyRstrip_isPrefix_self r)) hc

theorem applyImprovements_last_ok (r i0 : List Char) (rest : List (List Char))
    (hmem : ∀ i ∈ (i0 :: rest), i ∈ allRulePhrases)
    (h0 : ¬(pyLower i0 <:+: pyLower (stripPunct (pyRstrip r)))) :
    ∀ c, (applyImprovements r (i0 :: rest)).getLast? = some c →
      pySpace c = false := by
  unfold applyImprovements
  rw [List.foldl_cons]
  have hstep : addImprove (stripPunct (pyRstrip r)) i0 =
      stripPunct (pyRstrip r) ++ (',' :: ' ' :: i0) := by
    rw [addImprove, if_neg h0]
  rw [hstep]
  refine foldl_addImprove_last_ok rest _ ?_ ?_
  · intro j hj
    have hja := hmem j (List.mem_cons_of_mem i0 hj)
    exact ⟨phrases_ne_nil j hja, phrases_last_ok j hja⟩
  · intro c hc
    have h0a := hmem i0 (List.mem_cons_self i0 rest)
    have hne := phrases_ne_nil i0 h0a
    rw [List.getLast?_append] at hc
    have hg : (',' :: ' ' :: i0).getLast? = i0.getLast? := by
      cases hx : i0 with
      | nil => exact absurd hx hne
      | cons a as => simp
    rw [hg] at hc
    cases hgl : i0.getLast? with
    | none => exact absurd (List.getLast?_eq_none_iff.mp hgl) hne
    | some a =>
      rw [hgl] at hc
      simp only [Option.or_some, Option.some.injEq] at hc
      exact hc ▸ phrases_last_ok i0 h0a a hgl

theorem applyImprovements_preserves_present (r : List Char)
    (imps : List (List Char)) (rule : List Char)
    (hl : ∀ c, r.getLast? = some c → pySpace c = false)
    (hru : rule ∈ allRulePhrases) (hin : rule <:+: pyLower r) :
    rule <:+: pyLower (applyImprovements r imps) := by
  unfold applyImprovements
  rw [pyRstrip_eq_self r hl]
  have hstart : rule <:+: pyLower (stripPunct r) := by
    by_cases hep : endsPunct r = true
    · rw [stripPunct, if_pos hep]
      rw [show pyLower r.dropLast = (pyLower r).dropLast from
        List.map_dropLast asciiLower r]
      refine infix_dropLast hin ?_
      intro c hc hcr
      obtain ⟨c0, hc0, hc0p⟩ := endsPunct_spec hep
      have : (pyLower r).getLast? = some c0 := by
        rw [pyLower, List.getLast?_map, hc0]
        simp [asciiLower_fix_punct hc0p]
      rw [this] at hc
      simp only [Option.some.injEq] at hc
      subst hc
      exact phrases_no_punct rule hru c0 hcr hc0p
    · rw [stripPunct, if_neg hep]
      exact hin
  refine hstart.trans ?_
  exact (prefix_pyLower (foldl_addImprove_isPrefix_acc imps _)).isInfix

theorem hasQuality_true_intro {t s : List Char} (ht : t ∈ qualityTerms)
    (hin : t <:+: pyLower s) : hasQuality s = true := by
  simp only [hasQuality, List.any_eq_true, decide_eq_true_eq]
  exact ⟨t, ht, hin⟩

theorem applyGeneral_props (M : List Char)
    (hh : ∀ c, M.head? = some c → pySpace c = false)
    (hl : ∀ c, M.getLast? = some c → pySpace c = false) :
    pyStrip (applyGeneralEnhancements M) = applyGeneralEnhancements M ∧
    applyGeneralEnhancements (applyGeneralEnhancements M) =
      applyGeneralEnhancements M ∧
    pyLower M <+: pyLower (applyGeneralEnhancements M) := by
  by_cases hc : hasQuality M = false ∧ pyWordCount M < 30
  · have hO : applyGeneralEnhancements M =
        capitalizeFirst (M ++ (", cinematic shot").toList) := by
      unfold applyGeneralEnhancements
      rw [if_pos hc]
    have hhp : ∀ c, (M ++ (", cinematic shot").toList).head? = some c →
        pySpace c = false := by
      intro c hcp
      cases M with
      | nil =>
        simp at hcp
        subst hcp
        decide
      | cons a as =>
        rw [List.cons_append, List.head?_cons] at hcp
        injection hcp with hcp
        subst hcp
        exact hh a rfl
    have hlp : ∀ c, (M ++ (", cinematic shot").toList).getLast? = some c →
        pySpace c = false := by
      intro c hcp
      rw [List.getLast?_append] at hcp
      rw [show ((", cinematic shot").toList).getLast? = some 't' from rfl] at hcp
      simp only [Option.or_some, Option.some.injEq] at hcp
      subst hcp
      decide
    have hq : hasQuality (applyGeneralEnhancements M) = true := by
      rw [hO]
      refine hasQuality_true_intro (t := ("cinematic").toList) (by decide) ?_
      rw [pyLower_capitalizeFirst, pyLower_append]
      refine infix_append_left _ ?_
      decide
    refine ⟨?_, ?_, ?_⟩
    · rw [hO]
      exact pyStrip_eq_self _ (capitalizeFirst_head_ok hhp)
        (capitalizeFirst_last_ok hlp)
    · conv_lhs => rw [applyGeneralEnhancements]
      rw [if_neg (by rw [hq]; simp)]
      rw [hO, capitalizeFirst_capitalizeFirst]
    · rw [hO, pyLower_capitalizeFirst, pyLower_append]
      exact ⟨pyLower ((", cinematic shot").toList), rfl⟩
  · have hO : applyGeneralEnhancements M = capitalizeFirst M := by
      unfold applyGeneralEnhancements
      rw [if_neg hc]
    have hlow : pyLower (applyGeneralEnhancements M) = pyLower M := by
      rw [hO, pyLower_capitalizeFirst]
    refine ⟨?_, ?_, ?_⟩
    · rw [hO]
      exact pyStrip_eq_self _ (capitalizeFirst_head_ok hh)
        (capitalizeFirst_last_ok hl)
    · conv_lhs => rw [applyGeneralEnhancements]
      rw [if_neg (by
        rw [hasQuality_congr hlow, hO, pyWordCount_capitalizeFirst]
        exact hc)]
      rw [hO, capitalizeFirst_capitalizeFirst]
    · rw [hlow]

theorem applyImprovements_mem_result (r : List Char) (imps : List (List Char))
    {i : List Char} (hi : i ∈ imps) :
    pyLower i <:+: pyLower (applyImprovements r imps) := by
  unfold applyImprovements
  exact mem_foldl_addImprove_result imps _ i hi

theorem revisePrompt_second_pass (v : List PyViolation) (M : List Char)
    (hh : ∀ c, M.head? = some c → pySpace c = false)
    (hl : ∀ c, M.getLast? = some c → pySpace c = false)
    (hrules : ∀ v' ∈ v, ∀ rules, revisionRules v'.vtype = some rules →
      rules.headD [] <:+: pyLower M) :
    revisePrompt (applyGeneralEnhancements M) v none =
      applyGeneralEnhancements M := by
  obtain ⟨hstrip, hidem, hpref⟩ := applyGeneral_props M hh hl
  have hrules2 : ∀ v' ∈ v, ∀ rules, revisionRules v'.vtype = some rules →
      rules.headD [] <:+: pyLower (pyStrip (applyGeneralEnhancements M)) := by
    intro v' hv' rules hr'
    rw [hstrip]
    exact (hrules v' hv' rules hr').trans hpref.isInfix
  have hb2 : collectBase (pyStrip (applyGeneralEnhancements M)) v = [] :=
    collectBase_eq_nil hrules2
  have hcoll : collectImprovements (pyStrip (applyGeneralEnhancements M))
      v none = [] := by
    show dedupFirst (collectBase (pyStrip (applyGeneralEnhancements M)) v) = []
    rw [hb2]
    rfl
  calc revisePrompt (applyGeneralEnhancements M) v none
      = applyGeneralEnhancements
          (if (collectImprovements (pyStrip (applyGeneralEnhancements M))
              v none).isEmpty
           then pyStrip (applyGeneralEnhancements M)
           else applyImprovements (pyStrip (applyGeneralEnhancements M))
             (collectImprovements (pyStrip (applyGeneralEnhancements M))
               v none)) := rfl
    _ = applyGeneralEnhancements (pyStrip (applyGeneralEnhancements M)) := by
        rw [hcoll]
        rfl
    _ = applyGeneralEnhancements (applyGeneralEnhancements M) := by
        rw [hstrip]
    _ = applyGeneralEnhancements M := hidem

/-- C10 (amended): `revise_prompt` is idempotent whenever no Score Set is
supplied (`scores = None`): every violation-driven augmentation phrase and
the ", cinematic shot" enhancement are already substring-present after the
first pass and are skipped on the second, capitalization is already applied,
and no second punctuation strip can occur.  (With score-driven improvements
a second application may strip one additional trailing punctuation
character; see the counterexample.) -/
theorem revise_idempotent_no_scores (p : List Char)
    (v : List PyViolation) :
    revisePrompt (revisePrompt p v none) v none = revisePrompt p v none := by
  by_cases hbase : collectBase (pyStrip p) v = []
  · have hcoll : collectImprovements (pyStrip p) v none = [] := by
      show dedupFirst (collectBase (pyStrip p) v) = []
      rw [hbase]
      rfl
    have h1 : revisePrompt p v none = applyGeneralEnhancements (pyStrip p) := by
      calc revisePrompt p v none
          = applyGeneralEnhancements
              (if (collectImprovements (pyStrip p) v none).isEmpty
               then pyStrip p
               else applyImprovements (pyStrip p)
                 (collectImprovements (pyStrip p) v none)) := rfl
        _ = applyGeneralEnhancements (pyStrip p) := by rw [hcoll]; rfl
    have hrules : ∀ v' ∈ v, ∀ rules, revisionRules v'.vtype = some rules →
        rules.headD [] <:+: pyLower (pyStrip p) := by
      intro v' hv' rules hr'
      rw [collectBase_eq_filterMap] at hbase
      rw [List.filterMap_eq_nil_iff] at hbase
      have hg := hbase v' hv'
      rw [hr'] at hg
      have hg2 : (if rules.headD [] <:+: pyLower (pyStrip p) then none
          else some (rules.headD [])) = none := hg
      by_cases hin : rules.headD [] <:+: pyLower (pyStrip p)
      · exact hin
      · rw [if_neg hin] at hg2
        simp at hg2
    rw [h1]
    exact revisePrompt_second_pass v (pyStrip p) (pyStrip_head_ok p)
      (pyStrip_last_ok p) hrules
  · have hne : dedupFirst (collectBase (pyStrip p) v) ≠ [] :=
      dedupFirst_ne_nil hbase
    cases himps : dedupFirst (collectBase (pyStrip p) v) with
    | nil => exact absurd himps hne
    | cons i0 rest =>
      have hmemfacts : ∀ i ∈ dedupFirst (collectBase (pyStrip p) v),
          i ∈ allRulePhrases ∧ pyLower i = i ∧
            ¬(i <:+: pyLower (pyStrip p)) := by
        intro i hi
        have hib : i ∈ collectBase (pyStrip p) v := (mem_dedupFirst _ i).mp hi
        obtain ⟨⟨v', hv', rules, hr', heq⟩, hnin⟩ := mem_collectBase hib
        obtain ⟨hall, hfix⟩ := revisionRules_headD_mem hr'
        subst heq
        exact ⟨hall, hfix, hnin⟩
      have hmem' : ∀ i ∈ (i0 :: rest), i ∈ allRulePhrases := by
        intro i hi
        exact (hmemfacts i (himps ▸ hi)).1
      have h00 := hmemfacts i0 (himps ▸ List.mem_cons_self i0 rest)
      have h0 : ¬(pyLower i0 <:+:
          pyLower (stripPunct (pyRstrip (pyStrip p)))) := by
        rw [h00.2.1]
        intro hcon
        refine h00.2.2 ?_
        refine hcon.trans ?_
        refine (prefix_pyLower ?_).isInfix
        exact (stripPunct_isPrefix_self _).trans (pyRstrip_isPrefix_self _)
      have hcoll : collectImprovements (pyStrip p) v none = i0 :: rest := by
        show dedupFirst (collectBase (pyStrip p) v) = i0 :: rest
        exact himps
      have h1 : revisePrompt p v none =
          applyGeneralEnhancements
            (applyImprovements (pyStrip p) (i0 :: rest)) := by
        calc revisePrompt p v none
            = applyGeneralEnhancements
                (if (collectImprovements (pyStrip p) v none).isEmpty
                 then pyStrip p
                 else applyImprovements (pyStrip p)
                   (collectImprovements (pyStrip p) v none)) := rfl
          _ = applyGeneralEnhancements
                (applyImprovements (pyStrip p) (i0 :: rest)) := by
              rw [hcoll]
              rfl
      have hrules : ∀ v' ∈ v, ∀ rules, revisionRules v'.vtype = some rules →
          rules.headD [] <:+:
            pyLower (applyImprovements (pyStrip p) (i0 :: rest)) := by
        intro v' hv' rules hr'
        obtain ⟨hall, hfix⟩ := revisionRules_headD_mem hr'
        by_cases hin : rules.headD [] <:+: pyLower (pyStrip p)
        · exact applyImprovements_preserves_present (pyStrip p) (i0 :: rest)
            (rules.headD []) (pyStrip_last_ok p) hall hin
        · have hmemb : rules.headD [] ∈ dedupFirst (collectBase (pyStrip p) v) :=
            (mem_dedupFirst _ _).mpr (collectBase_mem_intro hv' hr' hin)
          rw [himps] at hmemb
          have := applyImprovements_mem_result (pyStrip p) (i0 :: rest) hmemb
          rwa [hfix] at this
      rw [h1]
      exact revisePrompt_second_pass v
        (applyImprovements (pyStrip p) (i0 :: rest))
        (applyImprovements_head_ok _ _ (pyStrip_head_ok p))
        (applyImprovements_last_ok _ _ _ hmem' h0)
        hrules

/-- Counterexample to C10 as stated: with a Score Set triggering the
low-visual-quality improvements, a prompt that already contains all three
phrases and ends in two punctuation characters loses one trailing period per
pass — the second application differs from the first. -/
theorem reviser_counterexample_c10 :
    revisePrompt
      (revisePrompt
        (("A cinematic dog with sharp details, in high quality, cinematic lighting..").toList)
        [] (some [(("visual_quality"), 0)]))
      [] (some [(("visual_quality"), 0)]) ≠
    revisePrompt
      (("A cinematic dog with sharp details, in high quality, cinematic lighting..").toList)
      [] (some [(("visual_quality"), 0)]) := by
  set_option maxRecDepth 4096 in decide
